import Mathlib

/-!
Shallow embedding of src/src/ui.rs (sorastats): the stats retention,
filtering and aggregation engine plus the interactive event loop.
Machine floats (f64 seconds, f64 stat values) are embedded as rationals;
the external regex crate is abstracted by a match predicate on strings.
-/

namespace Sorastats

/-- Modelled from the spec: stats.rs is not under src/; the spec defines
StatsValue as a tagged union over Number(float64) and Other(string-rendered),
with numeric values compared by value and opaque values by their canonical
string form. -/
inductive StatsValue
  | number (q : ℚ)
  | other (s : String)
deriving DecidableEq

/-- Modelled from the spec: the display/string form of a value used by
Tab::is_match (v.to_string()). -/
def StatsValue.render : StatsValue → String
  | .number q => toString q
  | .other s => s

/-- Whether the value is the Number variant. -/
def StatsValue.isNumber : StatsValue → Bool
  | .number _ => true
  | .other _ => false

/-- Modelled from the spec: ConnectionStats maps keys to StatsValues
(order-irrelevant mapping), embedded as an association list. -/
abbrev Stats := List (String × StatsValue)

/-- One connection's statistics at one instant. -/
structure ConnectionStats where
  stats : Stats
deriving DecidableEq

/-- Abstraction of a compiled pattern of the external regex crate: the core
only uses Regex::is_match, embedded as a boolean test on strings. -/
structure Regex where
  test : String → Bool

/-- Embedding of Tab: a name plus compiled key and value patterns. -/
structure Tab where
  name : String
  key_regex : Regex
  value_regex : Regex

/-- Embedding of Tab::is_match: true when any key/value pair of the stats
has its key matching the key regex and its rendered value matching the
value regex. -/
def Tab.is_match (t : Tab) (s : Stats) : Bool :=
  s.any (fun kv => t.key_regex.test kv.1 && t.value_regex.test kv.2.render)

/-- Splitting helper embedding Rust s.splitn(2, c): the two-piece pattern
matches exactly when c occurs in s; splitFirst returns the pieces around
the first occurrence of c, or none when c does not occur. -/
def splitFirst (c : Char) : List Char → Option (List Char × List Char)
  | [] => none
  | x :: xs =>
    if x = c then some ([], xs)
    else (splitFirst c xs).map (fun p => (x :: p.1, p.2))

/-- Errors of Tab parsing: the source either bails with a message naming the
expected format, or propagates the regex compile error with the question
mark operator (anyhow wraps the underlying syntax error). -/
inductive TabErr
  | formatError (input : String)
  | patternError (e : String)
deriving DecidableEq

/-- Rendering of the bail message of the format error. -/
def TabErr.message : TabErr → String
  | .formatError s =>
    "invalid tab spec " ++ s ++
      " (expected format: \"$NAME=$KEY_REGEX:$VALUE_REGEX\")"
  | .patternError e => e

/-- Embedding of impl FromStr for Tab: split on the first equals sign, split
the remainder on the first colon, compile both halves (compile abstracts
regex::Regex::new), and otherwise bail with the format error. -/
def Tab.from_str (compile : String → Except String Regex) (s : String) :
    Except TabErr Tab :=
  match splitFirst '=' s.data with
  | some (nm, rest) =>
    match splitFirst ':' rest with
    | some (k, v) =>
      match compile (String.mk k) with
      | .error e => .error (.patternError e)
      | .ok kr =>
        match compile (String.mk v) with
        | .error e => .error (.patternError e)
        | .ok vr => .ok ⟨String.mk nm, kr, vr⟩
    | none => .error (.formatError s)
  | none => .error (.formatError s)

/-- Lexicographic comparison of character lists, embedding the Ord instance
of Rust String (byte-lexicographic, which on UTF-8 agrees with scalar-value
lexicographic order) that BTreeMap keys use. -/
def keyLtChars : List Char → List Char → Bool
  | [], [] => false
  | [], _ :: _ => true
  | _ :: _, [] => false
  | a :: as, b :: bs =>
    if a < b then true
    else if b < a then false
    else keyLtChars as bs

/-- Strict key order on strings used by the BTreeMap embedding. -/
def keyLt (a b : String) : Bool := keyLtChars a.data b.data

/-- Embedding of HistoryItem: a snapshot stamped with its arrival instant,
time in rational seconds. -/
structure HistoryItem where
  timestamp : ℚ
  connections : List ConnectionStats
deriving DecidableEq

/-- Embedding of StatsItem: one key and its set of observed values; the
HashSet is embedded as a duplicate-free list. -/
structure StatsItem where
  key : String
  values : List StatsValue
deriving DecidableEq

/-- Embedding of one BTreeMap entry update in Ui::latest_stats: locate the
entry of the key in a list kept sorted ascending by key (creating a default
entry when absent, as entry(k).or_default does, and setting its key), and
insert the value into its set (no duplicates, as HashSet::insert does). -/
def insertStat (k : String) (v : StatsValue) : List StatsItem → List StatsItem
  | [] => [⟨k, [v]⟩]
  | it :: rest =>
    if keyLt k it.key then ⟨k, [v]⟩ :: it :: rest
    else if k = it.key then
      ⟨k, if v ∈ it.values then it.values else v :: it.values⟩ :: rest
    else it :: insertStat k v rest

/-- Embedding of Ui::latest_stats applied to a snapshot's connections: every
key/value pair of every connection matching the tab is inserted; BTreeMap
into_iter yields entries in ascending key order, which insertStat maintains. -/
def latest_stats (tab : Tab) (conns : List ConnectionStats) : List StatsItem :=
  conns.foldl
    (fun items conn =>
      if tab.is_match conn.stats then
        conn.stats.foldl (fun its kv => insertStat kv.1 kv.2 its) items
      else items)
    []

/-- Embedding of the loop of StatsItem::aggregated_value: add up numeric
values, or return Err carrying the size of the whole value set at the first
non-numeric value. -/
def aggLoop (total : ℕ) : List StatsValue → ℚ → Except ℕ ℚ
  | [], sum => .ok sum
  | .number q :: rest, sum => aggLoop total rest (sum + q)
  | .other _ :: _, _ => .error total

/-- Embedding of StatsItem::aggregated_value. -/
def StatsItem.aggregated_value (it : StatsItem) : Except ℕ ℚ :=
  aggLoop it.values.length it.values 0

/-- Sum of the numeric values of a list, in order. -/
def numSum : List StatsValue → ℚ
  | [] => 0
  | .number q :: rest => q + numSum rest
  | .other _ :: rest => numSum rest

/-- Key events the source dispatches on (q, Right, Left, Up, Down) plus the
ignored wildcard. -/
inductive KeyCode
  | charQ
  | right
  | left
  | up
  | down
  | other
deriving DecidableEq

/-- Embedding of the mutable Ui state: the configured options (retention
period and tabs), the history window (front oldest, back newest), the
active tab index, and the table selection (tui TableState::selected). -/
structure UiState where
  retention_period : ℚ
  tabs : List Tab
  history : List HistoryItem
  tab_index : ℕ
  selected : Option ℕ

/-- Result of one key-event dispatch: the updated state, whether the quit
command was received, and whether the handler called terminal.draw. -/
structure KeyStep where
  ui : UiState
  quit : Bool
  redraw : Bool

/-- Embedding of App::handle_key_event for one pending key event (none when
the zero-timeout poll reports no event). -/
def handle_key_event (st : UiState) (k : Option KeyCode) : KeyStep :=
  match k with
  | none => ⟨st, false, false⟩
  | some .charQ => ⟨st, true, false⟩
  | some .right =>
    let ti := min (st.tab_index + 1) (st.tabs.length - 1)
    if ti ≠ st.tab_index then ⟨{ st with tab_index := ti }, false, true⟩
    else ⟨st, false, false⟩
  | some .left =>
    let ti := st.tab_index - 1
    if ti ≠ st.tab_index then ⟨{ st with tab_index := ti }, false, true⟩
    else ⟨st, false, false⟩
  | some .up =>
    let i :=
      match st.selected with
      | some i => i - 1
      | none => 0
    ⟨{ st with selected := some i }, false, true⟩
  | some .down =>
    let i :=
      match st.selected with
      | some i => i + 1
      | none => 0
    ⟨{ st with selected := some i }, false, true⟩
  | some .other => ⟨st, false, false⟩

/-- Embedding of the aggregated-stats redraw path (Ui::draw through
Ui::draw_aggregated_stats to Ui::latest_stats): none models a panic, which
happens when the history window is empty (latest_stats unwraps
history.back() with expect) or the tab index is out of range of the
configured tabs (slice indexing). -/
def UiState.drawAgg (st : UiState) : Option (List StatsItem) :=
  match st.history.getLast?, st.tabs[st.tab_index]? with
  | some h, some tab => some (latest_stats tab h.connections)
  | _, _ => none

/-- Saturation of Instant::elapsed embedded on rational seconds: the elapsed
duration never goes below zero. -/
def elapsedSec (now ts : ℚ) : ℚ := max (now - ts) 0

/-- Embedding of the eviction loop of App::handle_stats_poll: pop from the
front, push the head back and stop as soon as it is still fresh. Each
iteration calls Instant::elapsed, which reads the wall clock afresh; clock
gives the reading of iteration k. -/
def evictOld (retention : ℚ) (clock : ℕ → ℚ) : ℕ → List HistoryItem → List HistoryItem
  | _, [] => []
  | k, item :: rest =>
    if elapsedSec (clock k) item.timestamp < retention then item :: rest
    else evictOld retention clock (k + 1) rest

/-- Outcomes of StatsReceiver::recv_timeout. -/
inductive RecvResult
  | disconnected
  | timeout
  | ok (connections : List ConnectionStats)

/-- Embedding of App::handle_stats_poll: tNew is the Instant::now reading
stamped on the new snapshot, clock the wall-clock readings used by this
eviction pass; the Bool records whether terminal.draw was called. -/
def handle_stats_poll (st : UiState) (tNew : ℚ) (clock : ℕ → ℚ) (r : RecvResult) :
    Except String (UiState × Bool) :=
  match r with
  | .disconnected => .error "Sora stats polling thread terminated unexpectedly"
  | .timeout => .ok (st, false)
  | .ok conns =>
    .ok ({ st with history :=
            evictOld st.retention_period clock 0 (st.history ++ [⟨tNew, conns⟩]) },
         true)

/-- Per-tick external inputs of the event loop: the pending key event, the
channel receive outcome, the arrival timestamp stamped on a received
snapshot, and the wall-clock readings of that tick's eviction pass. -/
structure LoopInputs where
  key : ℕ → Option KeyCode
  recv : ℕ → RecvResult
  arrival : ℕ → ℚ
  clock : ℕ → ℕ → ℚ

/-- Embedding of App::run, fuelled: each iteration handles one key event
(quit breaks the loop with Ok) and then polls for stats; an error from the
data phase propagates out of the loop via the question mark operator. -/
def runLoop (inp : LoopInputs) : ℕ → ℕ → UiState → Except String UiState
  | 0, _, st => .ok st
  | fuel + 1, t, st =>
    let ks := handle_key_event st (inp.key t)
    if ks.quit then .ok ks.ui
    else
      match handle_stats_poll ks.ui (inp.arrival t) (inp.clock t) (inp.recv t) with
      | .error e => .error e
      | .ok (st2, _) => runLoop inp fuel (t + 1) st2

/-- Fixture: a pattern matching every string, the behavior of the compiled
empty regex. -/
def regexAll : Regex := ⟨fun _ => true⟩

/-- Fixture: the default tab "total" with both patterns matching everything. -/
def exTab : Tab := ⟨"total", regexAll, regexAll⟩

/-- Fixture: a compile function standing in for regex::Regex::new, failing
on one concrete malformed pattern. -/
def exCompile : String → Except String Regex :=
  fun t => if t = "(" then .error "unclosed group" else .ok regexAll

/-- Fixture: the Ui state right after Ui::new with the default options. -/
def initUi : UiState := ⟨600, [exTab], [], 0, none⟩

/-- Fixture: two connections sharing keys, one key numeric-valued and one
key opaque-valued. -/
def exConns : List ConnectionStats :=
  [⟨[("bytes", .number 2), ("health", .other "ok")]⟩,
   ⟨[("bytes", .number 3), ("health", .other "fail")]⟩]

/-- Fixture: loop inputs whose delivery channel is closed from the start. -/
def exInp : LoopInputs :=
  ⟨fun _ => none, fun _ => .disconnected, fun _ => 0, fun _ _ => 0⟩

/-! Order lemmas for the key comparison used by the BTreeMap embedding. -/

theorem keyLtChars_irrefl (l : List Char) : keyLtChars l l = false := by
  induction l with
  | nil => rfl
  | cons a as ih => simp [keyLtChars, lt_irrefl, ih]

theorem keyLtChars_trans : ∀ a b c : List Char, keyLtChars a b = true →
    keyLtChars b c = true → keyLtChars a c = true := by
  intro a
  induction a with
  | nil =>
    intro b c hab hbc
    cases b with
    | nil => simp [keyLtChars] at hab
    | cons y ys =>
      cases c with
      | nil => simp [keyLtChars] at hbc
      | cons z zs => rfl
  | cons x xs ih =>
    intro b c hab hbc
    cases b with
    | nil => simp [keyLtChars] at hab
    | cons y ys =>
      cases c with
      | nil => simp [keyLtChars] at hbc
      | cons z zs =>
        rw [keyLtChars] at hab hbc ⊢
        rcases lt_trichotomy x y with hxy | hxy | hxy
        · rcases lt_trichotomy y z with hyz | hyz | hyz
          · rw [if_pos (lt_trans hxy hyz)]
          · subst hyz; rw [if_pos hxy]
          · rw [if_neg (lt_asymm hyz), if_pos hyz] at hbc; exact absurd hbc (by simp)
        · subst hxy
          rw [if_neg (lt_irrefl x), if_neg (lt_irrefl x)] at hab
          rcases lt_trichotomy x z with hxz | hxz | hxz
          · rw [if_pos hxz]
          · subst hxz
            rw [if_neg (lt_irrefl x), if_neg (lt_irrefl x)] at hbc ⊢
            exact ih ys zs hab hbc
          · rw [if_neg (lt_asymm hxz), if_pos hxz] at hbc; exact absurd hbc (by simp)
        · rw [if_neg (lt_asymm hxy), if_pos hxy] at hab; exact absurd hab (by simp)

theorem keyLtChars_conn : ∀ a b : List Char, keyLtChars a b = false →
    keyLtChars b a = false → a = b := by
  intro a
  induction a with
  | nil =>
    intro b hab _
    cases b with
    | nil => rfl
    | cons y ys => simp [keyLtChars] at hab
  | cons x xs ih =>
    intro b hab hba
    cases b with
    | nil => simp [keyLtChars] at hba
    | cons y ys =>
      rw [keyLtChars] at hab hba
      rcases lt_trichotomy x y with hxy | hxy | hxy
      · rw [if_pos hxy] at hab; exact absurd hab (by simp)
      · subst hxy
        rw [if_neg (lt_irrefl x), if_neg (lt_irrefl x)] at hab hba
        rw [ih ys hab hba]
      · rw [if_pos hxy] at hba; exact absurd hba (by simp)

theorem keyLt_irrefl (s : String) : keyLt s s = false := keyLtChars_irrefl s.data

theorem keyLt_trans {a b c : String} (h1 : keyLt a b = true) (h2 : keyLt b c = true) :
    keyLt a c = true := keyLtChars_trans a.data b.data c.data h1 h2

theorem keyLt_conn {a b : String} (h1 : keyLt a b = false) (h2 : keyLt b a = false) :
    a = b := by
  have h := keyLtChars_conn a.data b.data h1 h2
  cases a; cases b
  exact congrArg String.mk h

theorem keyLt_ne {a b : String} (h : keyLt a b = true) : a ≠ b := by
  intro he
  subst he
  rw [keyLt_irrefl] at h
  exact Bool.false_ne_true h

/-! Claim theorems. -/

/-- C5: Tab::is_match returns true exactly when some key/value pair of the
connection stats has its key matching the key pattern and its rendered
value matching the value pattern. -/
theorem c5_is_match_iff (t : Tab) (s : Stats) :
    t.is_match s = true ↔
      ∃ kv ∈ s, t.key_regex.test kv.1 = true ∧
        t.value_regex.test kv.2.render = true := by
  simp [Tab.is_match, List.any_eq_true, Bool.and_eq_true]

/-- C5 witness: the everything-matching tab matches a one-pair stats map. -/
theorem c5_witness :
    Tab.is_match exTab [("rtt", StatsValue.other "15")] = true :=
  (c5_is_match_iff exTab [("rtt", StatsValue.other "15")]).mpr
    ⟨("rtt", StatsValue.other "15"), by simp, rfl, rfl⟩

/-- C1 (code bug): pressing the select-down command before any snapshot has
arrived triggers a redraw, and the redraw reaches the expect panic of
Ui::latest_stats on the empty window instead of rendering an empty table. -/
theorem c1_empty_window_redraw_panics :
    (handle_key_event initUi (some .down)).redraw = true ∧
    UiState.drawAgg (handle_key_event initUi (some .down)).ui = none :=
  ⟨rfl, rfl⟩

/-- C8: the selected row index is changed only by the select commands: Down
initializes it to 0 or increments it with no clamp to the row count, Up
initializes it to 0 or decrements it flooring at 0, and every other command
(tab switches included) leaves the selection unchanged. -/
theorem c8_selection_updates (st : UiState) :
    ((handle_key_event st (some .down)).ui.selected =
      some (match st.selected with | some i => i + 1 | none => 0)) ∧
    ((handle_key_event st (some .up)).ui.selected =
      some (match st.selected with | some i => i - 1 | none => 0)) ∧
    (∀ k : KeyCode, k ≠ .up → k ≠ .down →
      (handle_key_event st (some k)).ui.selected = st.selected) ∧
    (handle_key_event st none).ui.selected = st.selected := by
  refine ⟨rfl, rfl, ?_, rfl⟩
  intro k hu hd
  cases k with
  | charQ => rfl
  | right => simp only [handle_key_event]; split <;> rfl
  | left => simp only [handle_key_event]; split <;> rfl
  | up => exact absurd rfl hu
  | down => exact absurd rfl hd
  | other => rfl

/-- C8 witness: at a concrete state with selection 3 on the last tab, the
Right command leaves the selection unchanged. -/
theorem c8_witness :
    (handle_key_event ⟨600, [exTab], [], 0, some 3⟩ (some .right)).ui.selected =
      some 3 :=
  (c8_selection_updates ⟨600, [exTab], [], 0, some 3⟩).2.2.1 .right
    (by decide) (by decide)

/-- Helper: key handling never changes the configured tabs list. -/
theorem handle_key_event_tabs_eq (st : UiState) (k : Option KeyCode) :
    (handle_key_event st k).ui.tabs = st.tabs := by
  cases k with
  | none => rfl
  | some kc =>
    cases kc with
    | charQ => rfl
    | right => simp only [handle_key_event]; split <;> rfl
    | left => simp only [handle_key_event]; split <;> rfl
    | up => rfl
    | down => rfl
    | other => rfl

/-- Helper: key handling keeps the active tab index within the tabs list. -/
theorem handle_key_event_tab_index_lt (st : UiState) (k : Option KeyCode)
    (h : st.tab_index < st.tabs.length) :
    (handle_key_event st k).ui.tab_index < st.tabs.length := by
  cases k with
  | none => exact h
  | some kc =>
    cases kc with
    | charQ => exact h
    | right =>
      simp only [handle_key_event]
      split
      · show min (st.tab_index + 1) (st.tabs.length - 1) < st.tabs.length
        omega
      · exact h
    | left =>
      simp only [handle_key_event]
      split
      · show st.tab_index - 1 < st.tabs.length
        omega
      · exact h
    | up => exact h
    | down => exact h
    | other => exact h

/-- Helper: the tabs list is preserved along any command sequence. -/
theorem foldl_key_tabs_eq (cmds : List KeyCode) (st : UiState) :
    (cmds.foldl (fun s c => (handle_key_event s (some c)).ui) st).tabs = st.tabs := by
  induction cmds generalizing st with
  | nil => rfl
  | cons c cs ih => rw [List.foldl_cons, ih, handle_key_event_tabs_eq]

/-- Helper: the tab index invariant holds along any command sequence. -/
theorem foldl_key_tab_index_lt (cmds : List KeyCode) (st : UiState)
    (h : st.tab_index < st.tabs.length) :
    (cmds.foldl (fun s c => (handle_key_event s (some c)).ui) st).tab_index <
      st.tabs.length := by
  induction cmds generalizing st with
  | nil => exact h
  | cons c cs ih =>
    rw [List.foldl_cons]
    have h1 := handle_key_event_tab_index_lt st (some c) h
    have h2 := handle_key_event_tabs_eq st (some c)
    have h3 : (handle_key_event st (some c)).ui.tab_index <
        (handle_key_event st (some c)).ui.tabs.length := by rw [h2]; exact h1
    have h4 := ih ((handle_key_event st (some c)).ui) h3
    rwa [h2] at h4

/-- C7: starting from tab index 0 with at least one configured tab, any
sequence of commands keeps the active tab index within bounds, and Right at
the last tab and Left at the first tab are no-ops. -/
theorem c7_tab_navigation_bounded (st : UiState) (hlen : 1 ≤ st.tabs.length)
    (h0 : st.tab_index = 0) (cmds : List KeyCode) :
    (cmds.foldl (fun s c => (handle_key_event s (some c)).ui) st).tab_index ≤
      st.tabs.length - 1 ∧
    (∀ s : UiState, s.tab_index = s.tabs.length - 1 →
      handle_key_event s (some .right) = ⟨s, false, false⟩) ∧
    (∀ s : UiState, s.tab_index = 0 →
      handle_key_event s (some .left) = ⟨s, false, false⟩) := by
  refine ⟨?_, ?_, ?_⟩
  · have h := foldl_key_tab_index_lt cmds st (by omega)
    omega
  · intro s hs
    have hmin : min (s.tab_index + 1) (s.tabs.length - 1) = s.tab_index := by omega
    simp [handle_key_event, hmin]
  · intro s hs
    have hz : s.tab_index - 1 = s.tab_index := by omega
    simp [handle_key_event, hz]

/-- C7 witness: with two tabs, bouncing off both boundaries stays in range. -/
theorem c7_witness :
    ([KeyCode.right, .right, .left, .left, .left].foldl
      (fun s c => (handle_key_event s (some c)).ui)
      ⟨600, [exTab, exTab], [], 0, none⟩).tab_index ≤
      ([exTab, exTab] : List Tab).length - 1 :=
  (c7_tab_navigation_bounded ⟨600, [exTab, exTab], [], 0, none⟩
    (by simp) rfl [KeyCode.right, .right, .left, .left, .left]).1

/-- Helper: splitFirst finds no split exactly when the character is absent. -/
theorem splitFirst_eq_none_iff (c : Char) (l : List Char) :
    splitFirst c l = none ↔ c ∉ l := by
  induction l with
  | nil => simp [splitFirst]
  | cons x xs ih =>
    by_cases hx : x = c
    · subst hx
      simp [splitFirst]
    · have hx2 : ¬ c = x := fun h => hx h.symm
      simp [splitFirst, hx, hx2, Option.map_eq_none', ih]

/-- Helper: a successful splitFirst splits around the first occurrence. -/
theorem splitFirst_eq_some (c : Char) : ∀ l a b : List Char,
    splitFirst c l = some (a, b) → l = a ++ c :: b ∧ c ∉ a := by
  intro l
  induction l with
  | nil => intro a b h; simp [splitFirst] at h
  | cons x xs ih =>
    intro a b h
    by_cases hx : x = c
    · subst hx
      rw [splitFirst, if_pos rfl] at h
      obtain ⟨h1, h2⟩ : [] = a ∧ xs = b := by simpa using h
      subst h1; subst h2
      exact ⟨rfl, by simp⟩
    · rw [splitFirst, if_neg hx] at h
      rcases Option.map_eq_some'.mp h with ⟨p, hp, hpe⟩
      have ha : x :: p.1 = a := congrArg Prod.fst hpe
      have hb : p.2 = b := congrArg Prod.snd hpe
      subst ha; subst hb
      obtain ⟨h1, h2⟩ := ih p.1 p.2 hp
      constructor
      · rw [List.cons_append, ← h1]
      · intro hc
        rcases List.mem_cons.mp hc with rfl | hc2
        · exact hx rfl
        · exact h2 hc2

/-- C4: Tab parsing splits the spec on the first equals sign, then the
remainder on the first colon; inputs of any other shape fail with the error
naming the expected format; a half that fails to compile as a pattern fails
with the wrapped pattern error; otherwise parsing succeeds with the three
parts as name, key pattern and value pattern. -/
theorem c4_from_str_cases (compile : String → Except String Regex) (s : String) :
    (('=' ∉ s.data) → Tab.from_str compile s = .error (.formatError s)) ∧
    (∀ nm rest, splitFirst '=' s.data = some (nm, rest) →
      s.data = nm ++ '=' :: rest ∧ '=' ∉ nm ∧
      ((':' ∉ rest → Tab.from_str compile s = .error (.formatError s)) ∧
       (∀ k v, splitFirst ':' rest = some (k, v) →
         rest = k ++ ':' :: v ∧ ':' ∉ k ∧
         ((∀ e, compile (String.mk k) = .error e →
            Tab.from_str compile s = .error (.patternError e)) ∧
          (∀ kr, compile (String.mk k) = .ok kr →
            (∀ e, compile (String.mk v) = .error e →
              Tab.from_str compile s = .error (.patternError e)) ∧
            (∀ vr, compile (String.mk v) = .ok vr →
              Tab.from_str compile s = .ok ⟨String.mk nm, kr, vr⟩)))))) := by
  constructor
  · intro h
    simp only [Tab.from_str, (splitFirst_eq_none_iff '=' s.data).mpr h]
  · intro nm rest hsplit
    obtain ⟨hcat, hnotin⟩ := splitFirst_eq_some '=' s.data nm rest hsplit
    refine ⟨hcat, hnotin, ?_, ?_⟩
    · intro h
      simp only [Tab.from_str, hsplit, (splitFirst_eq_none_iff ':' rest).mpr h]
    · intro k v hsplit2
      obtain ⟨hcat2, hnotin2⟩ := splitFirst_eq_some ':' rest k v hsplit2
      refine ⟨hcat2, hnotin2, ?_, ?_⟩
      · intro e he
        simp only [Tab.from_str, hsplit, hsplit2, he]
      · intro kr hkr
        constructor
        · intro e he
          simp only [Tab.from_str, hsplit, hsplit2, hkr, he]
        · intro vr hvr
          simp only [Tab.from_str, hsplit, hsplit2, hkr, hvr]

/-- C4 witness: the format-error, pattern-error and success outcomes at
concrete inputs. -/
theorem c4_witness :
    Tab.from_str exCompile "abc" = .error (.formatError "abc") ∧
    Tab.from_str exCompile "a=b" = .error (.formatError "a=b") ∧
    Tab.from_str exCompile "a=(:c" = .error (.patternError "unclosed group") ∧
    Tab.from_str exCompile "a=b:c" = .ok ⟨"a", regexAll, regexAll⟩ := by
  refine ⟨?_, ?_, ?_, ?_⟩
  · exact (c4_from_str_cases exCompile "abc").1 (by decide)
  · exact (((c4_from_str_cases exCompile "a=b").2 ['a'] ['b'] rfl).2.2.1) (by decide)
  · exact ((((c4_from_str_cases exCompile "a=(:c").2 ['a'] ['(', ':', 'c'] rfl).2.2.2
      ['('] ['c'] rfl).2.2.1) "unclosed group" rfl
  · exact (((((c4_from_str_cases exCompile "a=b:c").2 ['a'] ['b', ':', 'c'] rfl).2.2.2
      ['b'] ['c'] rfl).2.2.2 regexAll rfl).2) regexAll rfl

/-- C10: parsing places no non-emptiness requirement on the parts: the spec
consisting of just an equals sign and a colon parses into a tab with empty
name and empty key and value patterns, and (per the regex crate behavior of
the empty pattern, supplied as a hypothesis on compile) those patterns match
every key and every value. -/
theorem c10_empty_parts_parse (compile : String → Except String Regex) (r : Regex)
    (hc : compile "" = .ok r) (hr : ∀ t, r.test t = true) :
    Tab.from_str compile "=:" = .ok ⟨"", r, r⟩ ∧
    (Tab.mk "" r r).name = "" ∧
    ∀ t, (Tab.mk "" r r).key_regex.test t = true ∧
      (Tab.mk "" r r).value_regex.test t = true := by
  refine ⟨?_, rfl, fun t => ⟨hr t, hr t⟩⟩
  have h1 : splitFirst '=' "=:".data = some ([], [':']) := rfl
  have h2 : splitFirst ':' [':'] = some ([], []) := rfl
  have hc2 : compile (String.mk ([] : List Char)) = Except.ok r := hc
  simp only [Tab.from_str, h1, h2, hc2]

/-- C10 witness: with a compile function mapping every pattern to the
all-matching regex, the bare separator spec parses and its key pattern
matches a concrete key. -/
theorem c10_witness :
    Tab.from_str (fun _ => Except.ok regexAll) "=:" = .ok ⟨"", regexAll, regexAll⟩ ∧
    (Tab.mk "" regexAll regexAll).key_regex.test "connection_id" = true :=
  ⟨(c10_empty_parts_parse (fun _ => Except.ok regexAll) regexAll rfl
      (fun _ => rfl)).1,
   ((c10_empty_parts_parse (fun _ => Except.ok regexAll) regexAll rfl
      (fun _ => rfl)).2.2 "connection_id").1⟩

/-- C9: the data phase has exactly three outcomes: a timeout changes no
state and triggers no redraw; a new snapshot is appended, stale history
evicted and a redraw triggered; a closed channel yields the fatal error,
which propagates out of the event loop. -/
theorem c9_data_phase_outcomes (st : UiState) (tNew : ℚ) (clock : ℕ → ℚ) :
    handle_stats_poll st tNew clock .timeout = .ok (st, false) ∧
    (∀ conns, handle_stats_poll st tNew clock (.ok conns) =
      .ok ({ st with history :=
              evictOld st.retention_period clock 0 (st.history ++ [⟨tNew, conns⟩]) },
           true)) ∧
    handle_stats_poll st tNew clock .disconnected =
      .error "Sora stats polling thread terminated unexpectedly" ∧
    (∀ (inp : LoopInputs) (fuel t : ℕ) (s : UiState),
      inp.recv t = .disconnected →
      (handle_key_event s (inp.key t)).quit = false →
      runLoop inp (fuel + 1) t s =
        .error "Sora stats polling thread terminated unexpectedly") := by
  refine ⟨rfl, fun conns => rfl, rfl, ?_⟩
  intro inp fuel t s hrecv hquit
  simp only [runLoop, hquit, Bool.false_eq_true, if_false, hrecv, handle_stats_poll]

/-- C9 witness: with the channel closed from the first tick, one loop
iteration surfaces the fatal error. -/
theorem c9_witness :
    runLoop exInp 1 0 initUi =
      .error "Sora stats polling thread terminated unexpectedly" :=
  (c9_data_phase_outcomes initUi 0 (fun _ => 0)).2.2.2 exInp 0 0 initUi rfl rfl

/-- Helper: an elapsed reading strictly below the retention bound yields the
plain time-difference bound. -/
theorem lt_of_elapsedSec_lt {now ts R : ℚ} (h : elapsedSec now ts < R) :
    now - ts < R :=
  lt_of_le_of_lt (le_max_left (now - ts) 0) h

/-- Helper: with wall-clock readings at or after the arrival of the new
snapshot, every snapshot surviving the eviction pass over a time-sorted
window is within the retention bound measured from the new arrival. -/
theorem evictOld_retained_bound (R tNew : ℚ) (clock : ℕ → ℚ)
    (hclock : ∀ k, tNew ≤ clock k) :
    ∀ l : List HistoryItem,
      l.Pairwise (fun a b => a.timestamp ≤ b.timestamp) →
      (∀ item ∈ l, item.timestamp ≤ tNew) →
      ∀ k0 item, item ∈ evictOld R clock k0 l → tNew - item.timestamp < R := by
  intro l
  induction l with
  | nil => intro _ _ k0 item h; simp [evictOld] at h
  | cons hd tl ih =>
    intro hsort hle k0 item hmem
    rw [evictOld] at hmem
    by_cases hfresh : elapsedSec (clock k0) hd.timestamp < R
    · rw [if_pos hfresh] at hmem
      have hck := hclock k0
      have hdiff : clock k0 - hd.timestamp < R := lt_of_elapsedSec_lt hfresh
      rcases List.mem_cons.mp hmem with rfl | htl
      · linarith
      · have hhd : hd.timestamp ≤ item.timestamp :=
          (List.pairwise_cons.mp hsort).1 item htl
        linarith
    · rw [if_neg hfresh] at hmem
      exact ih (List.pairwise_cons.mp hsort).2
        (fun i hi => hle i (List.mem_cons_of_mem hd hi)) (k0 + 1) item hmem

/-- Helper: when every eviction check reads the clock exactly at the new
arrival instant, the pass over a time-sorted window retains exactly the
entries within the retention bound. -/
theorem evictOld_const_clock (R tNew : ℚ) :
    ∀ l : List HistoryItem,
      l.Pairwise (fun a b => a.timestamp ≤ b.timestamp) →
      ∀ k0, evictOld R (fun _ => tNew) k0 l =
        l.filter (fun item => decide (elapsedSec tNew item.timestamp < R)) := by
  intro l
  induction l with
  | nil => intro _ _; rfl
  | cons hd tl ih =>
    intro hsort k0
    rw [evictOld]
    by_cases hfresh : elapsedSec tNew hd.timestamp < R
    · rw [if_pos hfresh]
      have hall : tl.filter
          (fun item => decide (elapsedSec tNew item.timestamp < R)) = tl := by
        apply List.filter_eq_self.mpr
        intro a ha
        have hts : hd.timestamp ≤ a.timestamp :=
          (List.pairwise_cons.mp hsort).1 a ha
        have hmono : elapsedSec tNew a.timestamp ≤ elapsedSec tNew hd.timestamp :=
          max_le_max (by linarith) le_rfl
        simpa using lt_of_le_of_lt hmono hfresh
      rw [List.filter_cons_of_pos (by simpa using hfresh), hall]
    · rw [if_neg hfresh, List.filter_cons_of_neg (by simpa using hfresh)]
      exact ih (List.pairwise_cons.mp hsort).2 (k0 + 1)

/-- C2 (amended): after ingesting a new snapshot into a time-sorted window,
every retained snapshot is within the retention period of the new arrival
(under wall-clock readings at or after the arrival); eviction however uses
the wall clock at each check (Instant::elapsed), not the arrival instant,
and only when every check reads the clock exactly at the arrival instant is
eviction exact, retaining precisely the in-bound snapshots. -/
theorem c2_eviction_amended (R tNew : ℚ) (clock : ℕ → ℚ) (hist : List HistoryItem)
    (conns : List ConnectionStats)
    (hsort : hist.Pairwise (fun a b => a.timestamp ≤ b.timestamp))
    (hle : ∀ item ∈ hist, item.timestamp ≤ tNew)
    (hclock : ∀ k, tNew ≤ clock k) :
    (∀ item ∈ evictOld R clock 0 (hist ++ [⟨tNew, conns⟩]),
      tNew - item.timestamp < R) ∧
    evictOld R (fun _ => tNew) 0 (hist ++ [⟨tNew, conns⟩]) =
      (hist ++ [(⟨tNew, conns⟩ : HistoryItem)]).filter
        (fun item => decide (tNew - item.timestamp < R)) := by
  have hsort2 : (hist ++ [(⟨tNew, conns⟩ : HistoryItem)]).Pairwise
      (fun a b => a.timestamp ≤ b.timestamp) := by
    rw [List.pairwise_append]
    refine ⟨hsort, List.pairwise_singleton _ _, ?_⟩
    intro a ha b hb
    rcases List.mem_singleton.mp hb with rfl
    exact hle a ha
  have hle2 : ∀ item ∈ hist ++ [(⟨tNew, conns⟩ : HistoryItem)],
      item.timestamp ≤ tNew := by
    intro item hi
    rcases List.mem_append.mp hi with h | h
    · exact hle item h
    · rcases List.mem_singleton.mp h with rfl
      exact le_refl tNew
  constructor
  · exact fun item hmem =>
      evictOld_retained_bound R tNew clock hclock _ hsort2 hle2 0 item hmem
  · rw [evictOld_const_clock R tNew _ hsort2 0]
    apply List.filter_congr
    intro item hi
    have hts := hle2 item hi
    have heq : elapsedSec tNew item.timestamp = tNew - item.timestamp := by
      unfold elapsedSec
      rw [max_eq_left (by linarith)]
    rw [heq]

/-- C2 amended witness: at the counterexample inputs the surviving snapshot
is within the retention bound of the new arrival. -/
theorem c2_witness : (9 : ℚ) - (HistoryItem.mk 9 []).timestamp < 10 := by
  have hmem : (⟨9, []⟩ : HistoryItem) ∈
      evictOld 10 (fun _ => 11) 0 ([⟨0, []⟩] ++ [⟨9, []⟩]) := by
    norm_num [evictOld, elapsedSec]
  exact (c2_eviction_amended 10 9 (fun _ => 11) [⟨0, []⟩] []
    (List.pairwise_singleton _ _)
    (by intro item hi; rcases List.mem_singleton.mp hi with rfl; norm_num)
    (fun k => by norm_num)).1 ⟨9, []⟩ hmem

/-- C2 counterexample: retention 10, a window holding a snapshot arrived at
time 0, a new snapshot arriving at time 9. The old snapshot satisfies
9 - 0 < 10, yet with eviction checks reading the wall clock at time 11 (a
legitimate monotone reading after the arrival) the code evicts it, while
with checks reading the clock at the arrival instant it is kept: the
evicted set depends on the wall clock at eviction time, not only on the
ingestion event. -/
theorem c2_counterexample :
    ((9 : ℚ) - 0 < 10) ∧ ((9 : ℚ) ≤ 11) ∧
    evictOld 10 (fun _ => 11) 0 ([⟨0, []⟩] ++ [⟨9, []⟩]) = [⟨9, []⟩] ∧
    evictOld 10 (fun _ => 9) 0 ([⟨0, []⟩] ++ [⟨9, []⟩]) = [⟨0, []⟩, ⟨9, []⟩] := by
  refine ⟨by norm_num, by norm_num, ?_, ?_⟩
  · norm_num [evictOld, elapsedSec]
  · norm_num [evictOld, elapsedSec]

/-- Helper: every key in the updated map is the inserted key or an existing
key. -/
theorem insertStat_key_mem (k : String) (v : StatsValue) :
    ∀ l : List StatsItem, ∀ x ∈ insertStat k v l,
      x.key = k ∨ x.key ∈ l.map StatsItem.key := by
  intro l
  induction l with
  | nil =>
    intro x hx
    rcases List.mem_singleton.mp hx with rfl
    exact Or.inl rfl
  | cons it rest ih =>
    intro x hx
    rw [insertStat] at hx
    by_cases h1 : keyLt k it.key = true
    · rw [if_pos h1] at hx
      rcases List.mem_cons.mp hx with rfl | hx2
      · exact Or.inl rfl
      · exact Or.inr (List.mem_map_of_mem StatsItem.key hx2)
    · rw [if_neg h1] at hx
      by_cases h2 : k = it.key
      · rw [if_pos h2] at hx
        rcases List.mem_cons.mp hx with rfl | hx2
        · exact Or.inl rfl
        · exact Or.inr
            (List.mem_map_of_mem StatsItem.key (List.mem_cons_of_mem it hx2))
      · rw [if_neg h2] at hx
        rcases List.mem_cons.mp hx with rfl | hx2
        · exact Or.inr (by simp)
        · rcases ih x hx2 with h | h
          · exact Or.inl h
          · rw [List.map_cons]
            exact Or.inr (List.mem_cons_of_mem _ h)

/-- Helper: insertion preserves the ascending key order of the map. -/
theorem insertStat_pairwise (k : String) (v : StatsValue) :
    ∀ l : List StatsItem,
      l.Pairwise (fun a b => keyLt a.key b.key = true) →
      (insertStat k v l).Pairwise (fun a b => keyLt a.key b.key = true) := by
  intro l
  induction l with
  | nil => intro _; simp [insertStat]
  | cons it rest ih =>
    intro h
    obtain ⟨hhd, htl⟩ := List.pairwise_cons.mp h
    rw [insertStat]
    by_cases h1 : keyLt k it.key = true
    · rw [if_pos h1]
      refine List.Pairwise.cons ?_ h
      intro y hy
      rcases List.mem_cons.mp hy with rfl | hy2
      · exact h1
      · exact keyLt_trans h1 (hhd y hy2)
    · rw [if_neg h1]
      by_cases h2 : k = it.key
      · rw [if_pos h2]
        refine List.Pairwise.cons ?_ htl
        intro y hy
        show keyLt k y.key = true
        rw [h2]
        exact hhd y hy
      · rw [if_neg h2]
        have h1f : keyLt k it.key = false := by
          cases hb : keyLt k it.key
          · rfl
          · exact absurd hb h1
        have h3 : keyLt it.key k = true := by
          cases hb : keyLt it.key k
          · exact absurd (keyLt_conn h1f hb) h2
          · rfl
        refine List.Pairwise.cons ?_ (ih htl)
        intro y hy
        rcases insertStat_key_mem k v rest y hy with hk | hk
        · rw [hk]
          exact h3
        · rcases List.mem_map.mp hk with ⟨z, hz, hzk⟩
          rw [← hzk]
          exact hhd z hz

/-- Helper: insertion keeps every value set duplicate-free. -/
theorem insertStat_values_nodup (k : String) (v : StatsValue) :
    ∀ l : List StatsItem, (∀ x ∈ l, x.values.Nodup) →
      ∀ x ∈ insertStat k v l, x.values.Nodup := by
  intro l
  induction l with
  | nil =>
    intro _ x hx
    rcases List.mem_singleton.mp hx with rfl
    simp
  | cons it rest ih =>
    intro h x hx
    rw [insertStat] at hx
    by_cases h1 : keyLt k it.key = true
    · rw [if_pos h1] at hx
      rcases List.mem_cons.mp hx with rfl | hx2
      · simp
      · exact h x hx2
    · rw [if_neg h1] at hx
      by_cases h2 : k = it.key
      · rw [if_pos h2] at hx
        rcases List.mem_cons.mp hx with rfl | hx2
        · show (if v ∈ it.values then it.values else v :: it.values).Nodup
          by_cases hv : v ∈ it.values
          · rw [if_pos hv]
            exact h it (by simp)
          · rw [if_neg hv]
            exact List.nodup_cons.mpr ⟨hv, h it (by simp)⟩
        · exact h x (List.mem_cons_of_mem it hx2)
      · rw [if_neg h2] at hx
        rcases List.mem_cons.mp hx with rfl | hx2
        · exact h x (by simp)
        · exact ih (fun y hy => h y (List.mem_cons_of_mem it hy)) x hx2

/-- Helper: after insertion the inserted pair is present. -/
theorem insertStat_mem_self (k : String) (v : StatsValue) :
    ∀ l : List StatsItem, ∃ x ∈ insertStat k v l, x.key = k ∧ v ∈ x.values := by
  intro l
  induction l with
  | nil => exact ⟨⟨k, [v]⟩, by simp [insertStat]⟩
  | cons it rest ih =>
    rw [insertStat]
    by_cases h1 : keyLt k it.key = true
    · rw [if_pos h1]
      exact ⟨⟨k, [v]⟩, by simp⟩
    · rw [if_neg h1]
      by_cases h2 : k = it.key
      · rw [if_pos h2]
        refine ⟨⟨k, if v ∈ it.values then it.values else v :: it.values⟩,
                by simp, rfl, ?_⟩
        by_cases hv : v ∈ it.values
        · rw [if_pos hv]
          exact hv
        · rw [if_neg hv]
          exact List.mem_cons_self v it.values
      · rw [if_neg h2]
        obtain ⟨x, hx, hk, hv⟩ := ih
        exact ⟨x, List.mem_cons_of_mem it hx, hk, hv⟩

/-- Helper: insertion preserves every present key/value pair. -/
theorem insertStat_mem_mono (k : String) (v : StatsValue) (k0 : String)
    (v0 : StatsValue) :
    ∀ l : List StatsItem, (∃ x ∈ l, x.key = k0 ∧ v0 ∈ x.values) →
      ∃ x ∈ insertStat k v l, x.key = k0 ∧ v0 ∈ x.values := by
  intro l
  induction l with
  | nil =>
    intro h
    simp at h
  | cons it rest ih =>
    intro h
    obtain ⟨x, hx, hk, hv⟩ := h
    rw [insertStat]
    by_cases h1 : keyLt k it.key = true
    · rw [if_pos h1]
      exact ⟨x, List.mem_cons_of_mem _ (by exact hx), hk, hv⟩
    · rw [if_neg h1]
      by_cases h2 : k = it.key
      · rw [if_pos h2]
        rcases List.mem_cons.mp hx with heq | hx2
        · subst heq
          refine ⟨⟨k, if v ∈ x.values then x.values else v :: x.values⟩,
                  by simp, h2.trans hk, ?_⟩
          by_cases hv2 : v ∈ x.values
          · rw [if_pos hv2]
            exact hv
          · rw [if_neg hv2]
            exact List.mem_cons_of_mem v hv
        · exact ⟨x, List.mem_cons_of_mem _ hx2, hk, hv⟩
      · rw [if_neg h2]
        rcases List.mem_cons.mp hx with heq | hx2
        · subst heq
          exact ⟨x, by simp, hk, hv⟩
        · obtain ⟨y, hy, hyk, hyv⟩ := ih ⟨x, hx2, hk, hv⟩
          exact ⟨y, List.mem_cons_of_mem _ hy, hyk, hyv⟩

/-- Helper: a property preserved by insertion is preserved by the inner fold
over one connection's pairs. -/
theorem foldl_insert_preserve (P : List StatsItem → Prop)
    (hP : ∀ k v l, P l → P (insertStat k v l)) :
    ∀ (pairs : Stats) (l : List StatsItem), P l →
      P (pairs.foldl (fun its kv => insertStat kv.1 kv.2 its) l) := by
  intro pairs
  induction pairs with
  | nil => intro l h; exact h
  | cons p ps ih =>
    intro l h
    rw [List.foldl_cons]
    exact ih _ (hP p.1 p.2 l h)

/-- Helper: a property preserved by insertion is preserved by the fold of
Ui::latest_stats over the connections. -/
theorem foldl_conns_preserve (P : List StatsItem → Prop)
    (hP : ∀ k v l, P l → P (insertStat k v l)) (tab : Tab) :
    ∀ (conns : List ConnectionStats) (l : List StatsItem), P l →
      P (conns.foldl
          (fun items conn =>
            if tab.is_match conn.stats then
              conn.stats.foldl (fun its kv => insertStat kv.1 kv.2 its) items
            else items)
          l) := by
  intro conns
  induction conns with
  | nil => intro l h; exact h
  | cons c cs ih =>
    intro l h
    rw [List.foldl_cons]
    by_cases hm : tab.is_match c.stats = true
    · rw [if_pos hm]
      exact ih _ (foldl_insert_preserve P hP c.stats l h)
    · rw [if_neg hm]
      exact ih _ h

/-- Helper: the inner fold inserts every pair of the connection. -/
theorem foldl_insert_mem_self :
    ∀ (pairs : Stats) (l : List StatsItem) (kv : String × StatsValue),
      kv ∈ pairs →
      ∃ x ∈ pairs.foldl (fun its kv => insertStat kv.1 kv.2 its) l,
        x.key = kv.1 ∧ kv.2 ∈ x.values := by
  intro pairs
  induction pairs with
  | nil =>
    intro l kv h
    simp at h
  | cons p ps ih =>
    intro l kv h
    rw [List.foldl_cons]
    rcases List.mem_cons.mp h with rfl | h2
    · exact foldl_insert_preserve
        (fun its => ∃ x ∈ its, x.key = kv.1 ∧ kv.2 ∈ x.values)
        (fun k v l hl => insertStat_mem_mono k v kv.1 kv.2 l hl)
        ps _ (insertStat_mem_self kv.1 kv.2 l)
    · exact ih _ kv h2

/-- Helper: the connections fold collects every pair of every matching
connection. -/
theorem foldl_conns_mem (tab : Tab) :
    ∀ (conns : List ConnectionStats) (l : List StatsItem)
      (conn : ConnectionStats), conn ∈ conns →
      tab.is_match conn.stats = true →
      ∀ kv ∈ conn.stats,
        ∃ x ∈ conns.foldl
            (fun items conn =>
              if tab.is_match conn.stats then
                conn.stats.foldl (fun its kv => insertStat kv.1 kv.2 its) items
              else items)
            l,
          x.key = kv.1 ∧ kv.2 ∈ x.values := by
  intro conns
  induction conns with
  | nil =>
    intro l conn h
    simp at h
  | cons c cs ih =>
    intro l conn hconn hm kv hkv
    rw [List.foldl_cons]
    rcases List.mem_cons.mp hconn with rfl | h2
    · rw [if_pos hm]
      exact foldl_conns_preserve
        (fun its => ∃ x ∈ its, x.key = kv.1 ∧ kv.2 ∈ x.values)
        (fun k v l hl => insertStat_mem_mono k v kv.1 kv.2 l hl) tab cs _
        (foldl_insert_mem_self conn.stats l kv hkv)
    · by_cases hmc : tab.is_match c.stats = true
      · rw [if_pos hmc]
        exact ih _ conn h2 hm kv hkv
      · rw [if_neg hmc]
        exact ih _ conn h2 hm kv hkv

/-- Helper: over all-numeric values the aggregation loop returns the sum. -/
theorem aggLoop_all_num (total : ℕ) :
    ∀ (l : List StatsValue) (s : ℚ), (∀ v ∈ l, v.isNumber = true) →
      aggLoop total l s = .ok (s + numSum l) := by
  intro l
  induction l with
  | nil =>
    intro s _
    simp [aggLoop, numSum]
  | cons v rest ih =>
    intro s h
    cases v with
    | number q =>
      rw [aggLoop, ih (s + q) (fun w hw => h w (List.mem_cons_of_mem _ hw)),
        numSum, add_assoc]
    | other o =>
      have hno := h (StatsValue.other o) (by simp)
      simp [StatsValue.isNumber] at hno

/-- Helper: any non-numeric value makes the loop return Err with the full
set size. -/
theorem aggLoop_has_other (total : ℕ) :
    ∀ (l : List StatsValue) (s : ℚ), (∃ v ∈ l, v.isNumber = false) →
      aggLoop total l s = .error total := by
  intro l
  induction l with
  | nil =>
    intro s h
    simp at h
  | cons v rest ih =>
    intro s h
    cases v with
    | number q =>
      rw [aggLoop]
      apply ih
      obtain ⟨w, hw, hwn⟩ := h
      rcases List.mem_cons.mp hw with rfl | hw2
      · simp [StatsValue.isNumber] at hwn
      · exact ⟨w, hw2, hwn⟩
    | other o => rw [aggLoop]

/-- C6: the aggregated rows are in ascending key order, each key appears in
at most one row, and each row's value set is duplicate-free. -/
theorem c6_rows_sorted_unique (tab : Tab) (conns : List ConnectionStats) :
    (latest_stats tab conns).Pairwise (fun a b => keyLt a.key b.key = true) ∧
    ((latest_stats tab conns).map StatsItem.key).Nodup ∧
    ∀ row ∈ latest_stats tab conns, row.values.Nodup := by
  have hp : (latest_stats tab conns).Pairwise
      (fun a b => keyLt a.key b.key = true) :=
    foldl_conns_preserve _ (fun k v l h => insertStat_pairwise k v l h)
      tab conns [] List.Pairwise.nil
  refine ⟨hp, ?_, ?_⟩
  · exact List.pairwise_map.mpr (hp.imp (fun hab => keyLt_ne hab))
  · exact foldl_conns_preserve (fun l => ∀ x ∈ l, x.values.Nodup)
      (fun k v l h => insertStat_values_nodup k v l h) tab conns []
      (by intro x hx; simp at hx)

/-- C6 witness: the concrete aggregated rows have duplicate-free keys, and a
concrete row of the output has a duplicate-free value set. -/
theorem c6_witness :
    ((latest_stats exTab exConns).map StatsItem.key).Nodup ∧
    (StatsItem.mk "bytes" [StatsValue.number 3, StatsValue.number 2]).values.Nodup := by
  refine ⟨(c6_rows_sorted_unique exTab exConns).2.1, ?_⟩
  exact (c6_rows_sorted_unique exTab exConns).2.2
    ⟨"bytes", [StatsValue.number 3, StatsValue.number 2]⟩ (by decide)

/-- C3: aggregation includes every key/value pair of every connection whose
stats match the tab; per accumulated row, an all-numeric value set
aggregates to the numeric sum, a value set containing any non-numeric value
aggregates to the count of its distinct values (the numeric contribution is
dropped), and the two outcomes are mutually exclusive. -/
theorem c3_aggregation (tab : Tab) (conns : List ConnectionStats) :
    (∀ conn ∈ conns, tab.is_match conn.stats = true →
      ∀ kv ∈ conn.stats, ∃ row ∈ latest_stats tab conns,
        row.key = kv.1 ∧ kv.2 ∈ row.values) ∧
    (∀ row ∈ latest_stats tab conns,
      ((∀ v ∈ row.values, v.isNumber = true) →
        row.aggregated_value = .ok (numSum row.values)) ∧
      ((∃ v ∈ row.values, v.isNumber = false) →
        row.aggregated_value = .error row.values.dedup.length) ∧
      ¬∃ q n, row.aggregated_value = .ok q ∧ row.aggregated_value = .error n) := by
  constructor
  · intro conn hconn hm kv hkv
    exact foldl_conns_mem tab conns [] conn hconn hm kv hkv
  · intro row hrow
    have hnodup : row.values.Nodup :=
      foldl_conns_preserve (fun l => ∀ x ∈ l, x.values.Nodup)
        (fun k v l h => insertStat_values_nodup k v l h) tab conns []
        (by intro x hx; simp at hx) row hrow
    refine ⟨?_, ?_, ?_⟩
    · intro hall
      show aggLoop row.values.length row.values 0 = .ok (numSum row.values)
      rw [aggLoop_all_num row.values.length row.values 0 hall, zero_add]
    · intro hsome
      show aggLoop row.values.length row.values 0 = .error row.values.dedup.length
      rw [List.dedup_eq_self.mpr hnodup]
      exact aggLoop_has_other row.values.length row.values 0 hsome
    · rintro ⟨q, n, hq, hn⟩
      rw [hq] at hn
      exact Except.noConfusion hn

/-- C3 witness: the first connection's numeric pair lands in the "bytes"
row, and the all-numeric "bytes" row aggregates to the sum of its values. -/
theorem c3_witness :
    (∃ row ∈ latest_stats exTab exConns,
      row.key = "bytes" ∧ StatsValue.number 2 ∈ row.values) ∧
    (StatsItem.mk "bytes" [StatsValue.number 3, StatsValue.number 2]).aggregated_value =
      .ok (numSum [StatsValue.number 3, StatsValue.number 2]) := by
  constructor
  · exact (c3_aggregation exTab exConns).1
      ⟨[("bytes", StatsValue.number 2), ("health", StatsValue.other "ok")]⟩
      (by decide) (by decide) ("bytes", StatsValue.number 2) (by decide)
  · exact ((c3_aggregation exTab exConns).2
      ⟨"bytes", [StatsValue.number 3, StatsValue.number 2]⟩ (by decide)).1
      (by decide)

end Sorastats
